import Mathlib

/- Verification development for the pixf image-handling pipeline
   (package imageHandling: extraction, deduplication, concurrent
   re-encoding and writing of images pulled out of a PDF).

   The Go source is shallowly embedded: pure functions become Lean
   functions, the filesystem and external libraries (pdfcpu, image,
   webp, crypto/sha256) are modelled at their interfaces, and the
   concurrent worker pool becomes a labelled transition system. -/

/-- Raw file contents: a sequence of bytes (each byte a Nat). -/
abbrev Bytes := List Nat

/-- Canonical pixel buffer (image.RGBA): the decoded image normalized to
8-bit RGBA.  Pixel-level structure is irrelevant to the pipeline logic,
so the buffer is kept as an opaque payload. -/
structure RGBA where
  pix : List Nat
deriving DecidableEq

/-- Model of a Go image.Image interface value as returned by image.Decode:
either the dynamic type is already *image.RGBA, or it is some other
in-memory format carrying its pixel grid.  (image.Decode itself is an
external library call; it is modelled as a parameter where needed.) -/
inductive GoImage where
  | rgba (r : RGBA)
  | other (pix : List Nat)
deriving DecidableEq

/-- toRGBA: identity when the decoded image is already *image.RGBA,
otherwise a draw.Draw conversion producing the canonical pixel grid. -/
def toRGBA : GoImage → RGBA
  | .rgba r => r
  | .other p => ⟨p⟩

/-- hashBytes: SHA-256 digest of a byte slice (crypto/sha256, an external
library).  Per the spec, equality of fingerprints is treated as equality
of content (collisions are not modelled), so the digest is modelled as
the injective function returning the byte sequence itself. -/
def hashBytes (data : Bytes) : Bytes := data

/-- LoadedImage: an image loaded from disk, pre-converted to RGBA, plus
the SHA-256 hash of its raw file bytes (used as the dedup key). -/
structure LoadedImage where
  Img : RGBA
  FileHash : Bytes
deriving DecidableEq

/-- A directory entry as returned by os.ReadDir: a file name, whether it
is a directory, and (for the model) the file's contents, since reads are
modelled as total. -/
structure DirEntry where
  name : String
  isDir : Bool
  data : Bytes
deriving DecidableEq

/-- Suffix of a character list starting at the final dot, if any
(helper for filepath.Ext). -/
def extChars : List Char → Option (List Char)
  | [] => none
  | c :: cs =>
    match extChars cs with
    | some e => some e
    | none => if c = '.' then some (c :: cs) else none

/-- filepath.Ext: the file name extension, i.e. the suffix beginning at
the final dot; empty if there is no dot.  (Names come from ReadDir and
contain no path separators.) -/
def fileExt (s : String) : String :=
  match extChars s.data with
  | some e => ⟨e⟩
  | none => ""

/-- strings.ToLower as used by the source (ASCII case folding; the file
names and format names involved are ASCII).  Defined directly over the
character list so that it evaluates by kernel reduction. -/
def toLowerStr (s : String) : String :=
  ⟨s.data.map Char.toLower⟩

/-- isImageFile: checks if a filename has a recognized image extension
(lower-cased extension compared against the fixed list). -/
def isImageFile (filename : String) : Bool :=
  let ext := toLowerStr (fileExt filename)
  ext == ".png" || ext == ".jpg" || ext == ".jpeg" || ext == ".gif" ||
    ext == ".bmp" || ext == ".tiff" || ext == ".webp"

/-- The file extensions accepted by isImageFile. -/
def recognizedExts : List String :=
  [".png", ".jpg", ".jpeg", ".gif", ".bmp", ".tiff", ".webp"]

/-- Go fmt %04d: decimal rendering zero-padded on the left to at least
four digits. -/
def pad4 (n : Nat) : String :=
  let s := toString n
  if s.length < 4 then String.mk (List.replicate (4 - s.length) '0') ++ s
  else s

/-- The encoder capability objects registered in the encoder registry.
The ImageEncoder interface carries an Encode method (external png/webp
library calls, modelled as parameters where the pipeline uses them) and
a fixed Extension string. -/
inductive ImageEncoder where
  | PNGEncoder
  | WebPEncoder
deriving DecidableEq

/-- Extension: the fixed file extension of each encoder. -/
def ImageEncoder.Extension : ImageEncoder → String
  | .PNGEncoder => ".png"
  | .WebPEncoder => ".webp"

/-- encoderRegistry: the static format-name → encoder table. -/
def encoderRegistry : List (String × ImageEncoder) :=
  [("png", ImageEncoder.PNGEncoder), ("webp", ImageEncoder.WebPEncoder)]

/-- GetEncoder: lower-cases the format name, looks it up in the registry,
and fails with an unsupported-format error when absent. -/
def GetEncoder (format : String) : Except String ImageEncoder :=
  let fmt := toLowerStr format
  match encoderRegistry.lookup fmt with
  | some encoder => .ok encoder
  | none => .error ("unsupported format: " ++ fmt)

/-- The dedup loop of extractImagesConcurrent: walks loadedImages keeping
the first occurrence of each FileHash (the Go map\x5bstring\x5dbool `seen` is
modelled as the list of hashes inserted so far) and counting discarded
duplicates. -/
def dedupImages : List LoadedImage → List Bytes → List LoadedImage × Nat
  | [], _ => ([], 0)
  | li :: rest, seen =>
    if li.FileHash ∈ seen then
      let r := dedupImages rest seen
      (r.1, r.2 + 1)
    else
      let r := dedupImages rest (li.FileHash :: seen)
      (li :: r.1, r.2)

/-- Dedup completeness: the unique list has one element per distinct
fingerprint not already in `seen`. -/
theorem dedupImages_length (l : List LoadedImage) (seen : List Bytes) :
    (dedupImages l seen).1.length =
      ((l.map LoadedImage.FileHash).toFinset \ seen.toFinset).card := by
  induction l generalizing seen with
  | nil => simp [dedupImages]
  | cons li rest ih =>
    by_cases hmem : li.FileHash ∈ seen
    · simp only [dedupImages, if_pos hmem, List.map_cons, List.toFinset_cons]
      rw [ih seen]
      congr 1
      exact (Finset.insert_sdiff_of_mem _ (by simpa using hmem)).symm
    · simp only [dedupImages, if_neg hmem, List.map_cons, List.toFinset_cons,
        List.length_cons]
      rw [ih (li.FileHash :: seen)]
      have hns : li.FileHash ∉ seen.toFinset := by simpa using hmem
      rw [List.toFinset_cons]
      rw [Finset.sdiff_insert]
      rw [Finset.insert_sdiff_of_not_mem _ hns]
      by_cases hT : li.FileHash ∈ (rest.map LoadedImage.FileHash).toFinset \ seen.toFinset
      · rw [Finset.card_erase_of_mem hT, Finset.card_insert_of_mem hT]
        have := Finset.card_pos.mpr ⟨_, hT⟩
        omega
      · rw [Finset.erase_eq_of_not_mem hT, Finset.card_insert_of_not_mem hT]

/-- Dedup soundness: hashes in the unique list are pairwise distinct and
avoid `seen`. -/
theorem dedupImages_nodup (l : List LoadedImage) (seen : List Bytes) :
    ((dedupImages l seen).1.map LoadedImage.FileHash).Nodup ∧
      ∀ h ∈ (dedupImages l seen).1.map LoadedImage.FileHash, h ∉ seen := by
  induction l generalizing seen with
  | nil => simp [dedupImages]
  | cons li rest ih =>
    by_cases hmem : li.FileHash ∈ seen
    · simpa [dedupImages, if_pos hmem] using ih seen
    · have ih2 := ih (li.FileHash :: seen)
      simp only [dedupImages, if_neg hmem, List.map_cons, List.nodup_cons]
      refine ⟨⟨?_, ih2.1⟩, ?_⟩
      · intro hcontra
        exact (ih2.2 _ hcontra) (List.mem_cons_self _ _)
      · intro h hh
        rcases List.mem_cons.mp hh with rfl | hh'
        · exact hmem
        · intro hcontra
          exact (ih2.2 h hh') (List.mem_cons_of_mem _ hcontra)

/-- Dedup order preservation: the unique list is a sublist of the input,
so it keeps the enumeration order. -/
theorem dedupImages_sublist (l : List LoadedImage) (seen : List Bytes) :
    (dedupImages l seen).1.Sublist l := by
  induction l generalizing seen with
  | nil => simp [dedupImages]
  | cons li rest ih =>
    by_cases hmem : li.FileHash ∈ seen
    · simpa [dedupImages, if_pos hmem] using (ih seen).cons li
    · simpa [dedupImages, if_neg hmem] using (ih (li.FileHash :: seen)).cons₂ li

/-- Dedup keeps first occurrences: an element whose hash is fresh both in
`seen` and among the files before it survives. -/
theorem dedupImages_first_kept (pre : List LoadedImage) (li : LoadedImage)
    (post : List LoadedImage) (seen : List Bytes)
    (hseen : li.FileHash ∉ seen)
    (hpre : ∀ x ∈ pre, x.FileHash ≠ li.FileHash) :
    li ∈ (dedupImages (pre ++ li :: post) seen).1 := by
  induction pre generalizing seen with
  | nil =>
    simp [dedupImages, if_neg hseen]
  | cons p pre' ih =>
    by_cases hp : p.FileHash ∈ seen
    · simp only [List.cons_append, dedupImages, if_pos hp]
      exact ih seen hseen (fun x hx => hpre x (List.mem_cons_of_mem _ hx))
    · simp only [List.cons_append, dedupImages, if_neg hp]
      refine List.mem_cons_of_mem _ ?_
      refine ih (p.FileHash :: seen) ?_ (fun x hx => hpre x (List.mem_cons_of_mem _ hx))
      intro hcontra
      rcases List.mem_cons.mp hcontra with heq | hmem
      · exact hpre p (List.mem_cons_self _ _) heq.symm
      · exact hseen hmem

/-- Observable filesystem / library effects of the pipeline, in program
order.  Reading, decoding and hashing name the input file involved;
writing names the output file. -/
inductive Effect where
  | mkdirOut
  | extractCall
  | readFile (name : String)
  | decodeFile (name : String)
  | hashFile (name : String)
  | writeFile (name : String)
deriving DecidableEq

/-- A directory entry survives the sequential loop's skip test
(`if f.IsDir() || !isImageFile(f.Name()) { continue }`). -/
def eligible (f : DirEntry) : Bool :=
  !f.isDir && isImageFile f.name

/-- The output extension chosen by the sequential strategy: the
lower-cased original extension, defaulting to ".png" when empty. -/
def seqExt (name : String) : String :=
  let origExt := toLowerStr (fileExt name)
  if origExt = "" then ".png" else origExt

/-- The destination file name used by processExtractedFilesSequential:
image_%04d of the kept-file counter plus the preserved extension. -/
def seqName (name : String) (uniqueCount : Nat) : String :=
  "image_" ++ pad4 uniqueCount ++ seqExt name

/-- Result of the sequential original-format strategy: the written
(output name, bytes) pairs in order, the duplicate count, and the
effect trace. -/
structure SeqResult where
  outputs : List (String × Bytes)
  dupCount : Nat
  effects : List Effect
deriving DecidableEq

/-- The loop of processExtractedFilesSequential: skips directories and
unrecognized extensions, reads and hashes each surviving file once,
copies the raw bytes verbatim for the first occurrence of each hash
(naming it by the kept-file counter), and counts later duplicates. -/
def processSeqGo : List DirEntry → List Bytes → Nat → SeqResult
  | [], _, _ => ⟨[], 0, []⟩
  | f :: fs, seen, cnt =>
    if f.isDir || !(isImageFile f.name) then processSeqGo fs seen cnt
    else
      let h := hashBytes f.data
      if h ∈ seen then
        let r := processSeqGo fs seen cnt
        ⟨r.outputs, r.dupCount + 1,
          Effect.readFile f.name :: Effect.hashFile f.name :: r.effects⟩
      else
        let r := processSeqGo fs (h :: seen) (cnt + 1)
        ⟨(seqName f.name cnt, f.data) :: r.outputs, r.dupCount,
          Effect.readFile f.name :: Effect.hashFile f.name ::
            Effect.writeFile (seqName f.name cnt) :: r.effects⟩

/-- processExtractedFilesSequential: the sequential strategy run with an
empty seen-set and counter 0.  (The source additionally prints the
skipped-duplicates line when dupCount > 0; the console output is
assembled from dupCount at the pipeline level.) -/
def processExtractedFilesSequential (files : List DirEntry) : SeqResult :=
  processSeqGo files [] 0

/-- The file name read by a readFile effect, if any. -/
def readName : Effect → Option String
  | .readFile n => some n
  | _ => none
/-- A file tripping the sequential loop's skip test is not eligible. -/
theorem eligible_false_of_skip (f : DirEntry)
    (h : (f.isDir || !(isImageFile f.name)) = true) : eligible f = false := by
  simp only [eligible]
  revert h
  cases f.isDir <;> cases isImageFile f.name <;> simp

/-- A file passing the sequential loop's skip test is eligible. -/
theorem eligible_true_of_not_skip (f : DirEntry)
    (h : ¬((f.isDir || !(isImageFile f.name)) = true)) : eligible f = true := by
  simp only [eligible]
  revert h
  cases f.isDir <;> cases isImageFile f.name <;> simp

/-- An eligible file does not trip the skip test. -/
theorem not_skip_of_eligible (f : DirEntry) (h : eligible f = true) :
    ¬((f.isDir || !(isImageFile f.name)) = true) := by
  revert h
  simp only [eligible]
  cases f.isDir <;> cases isImageFile f.name <;> simp

/-- Single-read discipline of the sequential strategy: the read effects
are exactly one read per eligible file, in order. -/
theorem processSeqGo_reads (fs : List DirEntry) (seen : List Bytes) (cnt : Nat) :
    (processSeqGo fs seen cnt).effects.filterMap readName =
      (fs.filter eligible).map DirEntry.name := by
  induction fs generalizing seen cnt with
  | nil => simp [processSeqGo]
  | cons f fs ih =>
    by_cases hskip : (f.isDir || !(isImageFile f.name)) = true
    · have helig := eligible_false_of_skip f hskip
      rw [List.filter_cons, if_neg (by simp [helig])]
      simp only [processSeqGo, if_pos hskip]
      exact ih seen cnt
    · have helig := eligible_true_of_not_skip f hskip
      rw [List.filter_cons, if_pos (by simp [helig])]
      by_cases hmem : hashBytes f.data ∈ seen
      · simp only [processSeqGo, if_neg hskip, if_pos hmem]
        simp [readName, ih]
      · simp only [processSeqGo, if_neg hskip, if_neg hmem]
        simp [readName, ih]

/-- Each output of the sequential strategy, enumerated from the starting
counter, is a verbatim copy of some eligible input file whose name is
image_%04d of its enumeration position with the preserved extension. -/
theorem processSeqGo_outputs (fs : List DirEntry) (seen : List Bytes) (cnt : Nat) :
    ∀ p ∈ (processSeqGo fs seen cnt).outputs.enumFrom cnt,
      ∃ f, f ∈ fs ∧ eligible f = true ∧ p.2 = (seqName f.name p.1, f.data) := by
  induction fs generalizing seen cnt with
  | nil => simp [processSeqGo]
  | cons f fs ih =>
    intro p hp
    by_cases hskip : (f.isDir || !(isImageFile f.name)) = true
    · simp only [processSeqGo, if_pos hskip] at hp
      obtain ⟨g, hg, he, hv⟩ := ih seen cnt p hp
      exact ⟨g, List.mem_cons_of_mem _ hg, he, hv⟩
    · by_cases hmem : hashBytes f.data ∈ seen
      · simp only [processSeqGo, if_neg hskip, if_pos hmem] at hp
        obtain ⟨g, hg, he, hv⟩ := ih seen cnt p hp
        exact ⟨g, List.mem_cons_of_mem _ hg, he, hv⟩
      · have helig := eligible_true_of_not_skip f hskip
        simp only [processSeqGo, if_neg hskip, if_neg hmem, List.enumFrom] at hp
        rcases List.mem_cons.mp hp with rfl | hp'
        · exact ⟨f, List.mem_cons_self _ _, helig, rfl⟩
        · obtain ⟨g, hg, he, hv⟩ := ih (hashBytes f.data :: seen) (cnt + 1) p hp'
          exact ⟨g, List.mem_cons_of_mem _ hg, he, hv⟩

/-- Dedup soundness of the sequential strategy: the hashes of kept files
are pairwise distinct and avoid the seen-set. -/
theorem processSeqGo_nodup (fs : List DirEntry) (seen : List Bytes) (cnt : Nat) :
    ((processSeqGo fs seen cnt).outputs.map (fun o => hashBytes o.2)).Nodup ∧
      ∀ x ∈ (processSeqGo fs seen cnt).outputs.map (fun o => hashBytes o.2),
        x ∉ seen := by
  induction fs generalizing seen cnt with
  | nil => simp [processSeqGo]
  | cons f fs ih =>
    by_cases hskip : (f.isDir || !(isImageFile f.name)) = true
    · simpa only [processSeqGo, if_pos hskip] using ih seen cnt
    · by_cases hmem : hashBytes f.data ∈ seen
      · simpa only [processSeqGo, if_neg hskip, if_pos hmem] using ih seen cnt
      · have ih2 := ih (hashBytes f.data :: seen) (cnt + 1)
        simp only [processSeqGo, if_neg hskip, if_neg hmem, List.map_cons,
          List.nodup_cons]
        refine ⟨⟨?_, ih2.1⟩, ?_⟩
        · intro hcontra
          exact (ih2.2 _ hcontra) (List.mem_cons_self _ _)
        · intro x hx
          rcases List.mem_cons.mp hx with rfl | hx'
          · exact hmem
          · intro hcontra
            exact (ih2.2 x hx') (List.mem_cons_of_mem _ hcontra)

/-- Dedup completeness of the sequential strategy: one output per
distinct fingerprint among eligible files not already seen. -/
theorem processSeqGo_length (fs : List DirEntry) (seen : List Bytes) (cnt : Nat) :
    (processSeqGo fs seen cnt).outputs.length =
      (((fs.filter eligible).map (fun f => hashBytes f.data)).toFinset \
        seen.toFinset).card := by
  induction fs generalizing seen cnt with
  | nil => simp [processSeqGo]
  | cons f fs ih =>
    by_cases hskip : (f.isDir || !(isImageFile f.name)) = true
    · have helig := eligible_false_of_skip f hskip
      rw [List.filter_cons, if_neg (by simp [helig])]
      simp only [processSeqGo, if_pos hskip]
      exact ih seen cnt
    · have helig := eligible_true_of_not_skip f hskip
      rw [List.filter_cons, if_pos (by simp [helig])]
      by_cases hmem : hashBytes f.data ∈ seen
      · simp only [processSeqGo, if_neg hskip, if_pos hmem, List.map_cons,
          List.toFinset_cons]
        rw [ih seen cnt]
        congr 1
        exact (Finset.insert_sdiff_of_mem _ (by simpa using hmem)).symm
      · simp only [processSeqGo, if_neg hskip, if_neg hmem, List.map_cons,
          List.toFinset_cons, List.length_cons]
        rw [ih (hashBytes f.data :: seen) (cnt + 1)]
        have hns : hashBytes f.data ∉ seen.toFinset := by simpa using hmem
        rw [List.toFinset_cons]
        rw [Finset.sdiff_insert]
        rw [Finset.insert_sdiff_of_not_mem _ hns]
        by_cases hT : hashBytes f.data ∈
            ((fs.filter eligible).map (fun f => hashBytes f.data)).toFinset \
              seen.toFinset
        · rw [Finset.card_erase_of_mem hT, Finset.card_insert_of_mem hT]
          have := Finset.card_pos.mpr ⟨_, hT⟩
          omega
        · rw [Finset.erase_eq_of_not_mem hT, Finset.card_insert_of_not_mem hT]

/-- First-occurrence rule of the sequential strategy: an eligible file
whose hash is fresh in the seen-set and among the eligible files before
it is copied to the output. -/
theorem processSeqGo_first_kept (pre : List DirEntry) (f : DirEntry)
    (post : List DirEntry) (seen : List Bytes) (cnt : Nat)
    (helig : eligible f = true)
    (hseen : hashBytes f.data ∉ seen)
    (hpre : ∀ x ∈ pre, eligible x = true → hashBytes x.data ≠ hashBytes f.data) :
    f.data ∈ (processSeqGo (pre ++ f :: post) seen cnt).outputs.map Prod.snd := by
  induction pre generalizing seen cnt with
  | nil =>
    have hskip := not_skip_of_eligible f helig
    simp only [List.nil_append, processSeqGo, if_neg hskip, if_neg hseen]
    simp
  | cons p pre' ih =>
    by_cases hskip : (p.isDir || !(isImageFile p.name)) = true
    · simp only [List.cons_append, processSeqGo, if_pos hskip]
      exact ih seen cnt hseen (fun x hx => hpre x (List.mem_cons_of_mem _ hx))
    · have heligp := eligible_true_of_not_skip p hskip
      by_cases hmem : hashBytes p.data ∈ seen
      · simp only [List.cons_append, processSeqGo, if_neg hskip, if_pos hmem]
        exact ih seen cnt hseen (fun x hx => hpre x (List.mem_cons_of_mem _ hx))
      · simp only [List.cons_append, processSeqGo, if_neg hskip, if_neg hmem,
          List.map_cons]
        refine List.mem_cons_of_mem _ ?_
        refine ih (hashBytes p.data :: seen) (cnt + 1) ?_
          (fun x hx => hpre x (List.mem_cons_of_mem _ hx))
        intro hcontra
        rcases List.mem_cons.mp hcontra with heq | hmem'
        · exact hpre p (List.mem_cons_self _ _) heligp heq.symm
        · exact hseen hmem'

/-- C6: the sequential original-format strategy reads each eligible raw
file exactly once; each output is a byte-for-byte verbatim copy of some
eligible input, named by a gapless counter over kept files only with the
original extension preserved; kept fingerprints are pairwise distinct,
with one output per distinct fingerprint; the first occurrence of a
fingerprint is always copied; and a missing extension defaults to .png. -/
theorem C6_sequential_strategy (files : List DirEntry) :
    ((processExtractedFilesSequential files).effects.filterMap readName =
        (files.filter eligible).map DirEntry.name) ∧
    (∀ p ∈ (processExtractedFilesSequential files).outputs.enum,
      ∃ f, f ∈ files ∧ eligible f = true ∧
        p.2 = (seqName f.name p.1, f.data)) ∧
    ((processExtractedFilesSequential files).outputs.map
        (fun o => hashBytes o.2)).Nodup ∧
    ((processExtractedFilesSequential files).outputs.length =
      ((files.filter eligible).map (fun f => hashBytes f.data)).toFinset.card) ∧
    (∀ pre f post, files = pre ++ f :: post → eligible f = true →
      (∀ x ∈ pre, eligible x = true → hashBytes x.data ≠ hashBytes f.data) →
      f.data ∈ (processExtractedFilesSequential files).outputs.map Prod.snd) ∧
    (∀ nm, fileExt nm = "" → seqExt nm = ".png") := by
  refine ⟨processSeqGo_reads files [] 0, ?_,
    (processSeqGo_nodup files [] 0).1, ?_, ?_, ?_⟩
  · intro p hp
    exact processSeqGo_outputs files [] 0 p (by simpa [List.enum] using hp)
  · rw [processExtractedFilesSequential, processSeqGo_length]
    simp
  · intro pre f post hdecomp helig hpre
    subst hdecomp
    exact processSeqGo_first_kept pre f post [] 0 helig (by simp) hpre
  · intro nm hext
    have h0 : toLowerStr "" = "" := rfl
    simp [seqExt, hext, h0]

/-- C6 witness: the sequential strategy evaluated on a concrete batch
with a duplicate, an ineligible file and a case-variant extension. -/
theorem C6_sequential_strategy_witness :
    (⟨"a.PNG", false, [1, 2]⟩ : DirEntry).data ∈
      (processExtractedFilesSequential
        [⟨"a.PNG", false, [1, 2]⟩, ⟨"b.png", false, [1, 2]⟩,
         ⟨"notes.txt", false, [3]⟩]).outputs.map Prod.snd ∧
    (processExtractedFilesSequential
        [⟨"a.PNG", false, [1, 2]⟩, ⟨"b.png", false, [1, 2]⟩,
         ⟨"notes.txt", false, [3]⟩]).outputs.length = 1 :=
  ⟨(C6_sequential_strategy _).2.2.2.2.1 [] ⟨"a.PNG", false, [1, 2]⟩
      [⟨"b.png", false, [1, 2]⟩, ⟨"notes.txt", false, [3]⟩]
      rfl (by decide) (by simp),
    by decide⟩
/-- C1: the dedup stage of extractImagesConcurrent yields exactly one
image per distinct fingerprint (completeness), all fingerprints in the
unique set are pairwise distinct (soundness), and the unique set is the
first-occurrence subsequence of the input enumeration order. -/
theorem C1_dedup_unique_set (l : List LoadedImage) :
    (dedupImages l []).1.length = (l.map LoadedImage.FileHash).toFinset.card ∧
    ((dedupImages l []).1.map LoadedImage.FileHash).Nodup ∧
    (dedupImages l []).1.Sublist l ∧
    (∀ pre li post, l = pre ++ li :: post →
      (∀ x ∈ pre, x.FileHash ≠ li.FileHash) →
      li ∈ (dedupImages l []).1) := by
  refine ⟨?_, (dedupImages_nodup l []).1, dedupImages_sublist l [], ?_⟩
  · rw [dedupImages_length]
    simp
  · intro pre li post hdecomp hpre
    subst hdecomp
    exact dedupImages_first_kept pre li post [] (by simp) hpre

/-- C1 witness: the dedup properties evaluated on a concrete batch with
one duplicated fingerprint. -/
theorem C1_dedup_unique_set_witness :
    (⟨⟨[1]⟩, [9]⟩ : LoadedImage) ∈
      (dedupImages [⟨⟨[1]⟩, [9]⟩, ⟨⟨[2]⟩, [9]⟩, ⟨⟨[3]⟩, [5]⟩] []).1 ∧
    (dedupImages [⟨⟨[1]⟩, [9]⟩, ⟨⟨[2]⟩, [9]⟩, ⟨⟨[3]⟩, [5]⟩] []).1.length = 2 :=
  ⟨(C1_dedup_unique_set [⟨⟨[1]⟩, [9]⟩, ⟨⟨[2]⟩, [9]⟩, ⟨⟨[3]⟩, [5]⟩]).2.2.2
      [] ⟨⟨[1]⟩, [9]⟩ [⟨⟨[2]⟩, [9]⟩, ⟨⟨[3]⟩, [5]⟩] rfl (by simp),
    by decide⟩

/-- outName of writeImageFile: image_%04d of index+1 (1-based) plus the
encoder's fixed extension — a pure function of the task index. -/
def writeName (encoder : ImageEncoder) (index : Nat) : String :=
  "image_" ++ pad4 (index + 1) ++ encoder.Extension

/-- A scratch encoding buffer (bytes.Buffer contents). -/
abbrev Buffer := Bytes

/-- getBuffer: take a buffer from the pool; when the pool is empty the
sync.Pool New function allocates a fresh empty buffer. -/
def getBuffer : List Buffer → Buffer × List Buffer
  | [] => ([], [])
  | b :: rest => (b, rest)

/-- buf.Reset(): discard the buffer's contents. -/
def resetBuffer (_ : Buffer) : Buffer := []

/-- putBuffer: reset the buffer, then return it to the pool. -/
def putBuffer (buf : Buffer) (pool : List Buffer) : List Buffer :=
  resetBuffer buf :: pool

/-- writeImageFile: check a buffer out of the pool, encode the image into
it (the encoder's Encode is an external library call, passed as the
`encode` parameter, appending to the buffer), then write the buffer's
bytes under the 1-based deterministic name (os.WriteFile's possible
failure is the `writeResult` parameter).  The deferred putBuffer runs on
every exit path. -/
def writeImageFile (encode : RGBA → Except String Bytes) (img : RGBA)
    (encoder : ImageEncoder) (index : Nat) (writeResult : Option String)
    (pool : List Buffer) : Except String (String × Bytes) × List Buffer :=
  let gp := getBuffer pool
  let buf := gp.1
  match encode img with
  | .error e => (.error ("encode: " ++ e), putBuffer buf gp.2)
  | .ok encoded =>
    let outBytes := buf ++ encoded
    match writeResult with
    | some werr => (.error werr, putBuffer outBytes gp.2)
    | none => (.ok (writeName encoder index, outBytes), putBuffer outBytes gp.2)

/-- C8: writeImageFile returns its scratch buffer to the pool, reset to
empty, on every exit path (encode failure, write failure and success);
under the invariant that pooled buffers are empty, every checkout yields
an empty buffer, the invariant is preserved, and the bytes written for an
image are exactly that image's encoding with no residual bytes. -/
theorem C8_buffer_pool (encode : RGBA → Except String Bytes) (img : RGBA)
    (encoder : ImageEncoder) (index : Nat) (writeResult : Option String)
    (pool : List Buffer) :
    ((writeImageFile encode img encoder index writeResult pool).2 =
        ([] : Buffer) :: pool.tail) ∧
    ((∀ b ∈ pool, b = ([] : Buffer)) →
      (getBuffer pool).1 = [] ∧
      (∀ b ∈ (writeImageFile encode img encoder index writeResult pool).2,
        b = ([] : Buffer)) ∧
      (∀ encoded, encode img = .ok encoded → writeResult = none →
        (writeImageFile encode img encoder index writeResult pool).1 =
          .ok (writeName encoder index, encoded))) := by
  constructor
  · cases pool <;> rcases henc : encode img with e | encoded <;>
      cases writeResult <;>
      simp [writeImageFile, getBuffer, putBuffer, resetBuffer, henc]
  · intro hpool
    have hget : (getBuffer pool).1 = [] := by
      cases pool with
      | nil => rfl
      | cons b rest => exact hpool b (List.mem_cons_self _ _)
    refine ⟨hget, ?_, ?_⟩
    · intro b hb
      rcases henc : encode img with e | encoded <;>
        cases writeResult <;>
        · simp only [writeImageFile, putBuffer, resetBuffer, henc] at hb
          rcases List.mem_cons.mp hb with rfl | hb'
          · rfl
          · rcases pool with _ | ⟨p, ps⟩
            · simp [getBuffer] at hb'
            · exact hpool b (List.mem_cons_of_mem _ (by simpa [getBuffer] using hb'))
    · intro encoded henc hwr
      subst hwr
      simp [writeImageFile, henc, hget]

/-- C8 witness: buffer handling evaluated concretely on both the encode
failure path and the success path. -/
theorem C8_buffer_pool_witness :
    (writeImageFile (fun _ => .error "boom") ⟨[1]⟩ ImageEncoder.PNGEncoder 0 none
        [[7, 7]]).2 = [[]] ∧
    (writeImageFile (fun r => .ok r.pix) ⟨[1]⟩ ImageEncoder.PNGEncoder 0 none
        [[]]).1 = .ok (writeName ImageEncoder.PNGEncoder 0, [1]) :=
  ⟨(C8_buffer_pool (fun _ => .error "boom") ⟨[1]⟩ ImageEncoder.PNGEncoder 0 none
      [[7, 7]]).1,
   ((C8_buffer_pool (fun r => .ok r.pix) ⟨[1]⟩ ImageEncoder.PNGEncoder 0 none
      [[]]).2 (by decide)).2.2 [1] rfl rfl⟩

/-- The load loop of extractImagesConcurrent: skips files without a
recognized image extension, and for each remaining file reads it once,
decodes the bytes (aborting the batch on the first decode failure),
converts to RGBA and hashes the same in-memory bytes. -/
def loadImagesGo (decode : Bytes → Except String GoImage) :
    List DirEntry → List Effect × Except String (List LoadedImage)
  | [] => ([], .ok [])
  | f :: fs =>
    if !(isImageFile f.name) then loadImagesGo decode fs
    else
      match decode f.data with
      | .error e =>
        ([Effect.readFile f.name, Effect.decodeFile f.name],
          .error ("decode image: " ++ e))
      | .ok img =>
        let r := loadImagesGo decode fs
        (Effect.readFile f.name :: Effect.decodeFile f.name ::
            Effect.hashFile f.name :: r.1,
          match r.2 with
          | .error e => .error e
          | .ok rest => .ok (⟨toRGBA img, hashBytes f.data⟩ :: rest))

/-- Outcome of os.Mkdir on the output directory. -/
inductive MkdirOutcome where
  | ok
  | alreadyExists
  | otherErr (e : String)
deriving DecidableEq

/-- Staged result of ExtractImagesFromFile: an error, a finished
sequential run, a concurrent run handing the unique image set to the
worker pool, or the early nil return when no images were loaded. -/
inductive PipeResult where
  | err (e : String)
  | seqDone (outputs : List (String × Bytes)) (console : List String)
  | poolReady (console : List String) (uniqueImages : List LoadedImage)
      (encoder : ImageEncoder)
  | emptyOk
deriving DecidableEq

/-- The informational duplicate-skip line. -/
def skipMsg (n : Nat) : String :=
  "skipped " ++ toString n ++ " duplicate image(s)"

/-- ExtractImagesFromFile: creates the output directory (tolerating an
already-exists error), dispatches to the sequential strategy for the
"original"/empty format, otherwise resolves the encoder first and then
extracts (api.ExtractImagesFile, an external call whose outcome is the
`extracted` parameter), loads and dedups, and hands the unique images to
the worker pool.  Returns the effect trace and the staged result. -/
def ExtractImagesFromFile (mk : MkdirOutcome)
    (extracted : Except String (List DirEntry))
    (decode : Bytes → Except String GoImage)
    (format : String) : List Effect × PipeResult :=
  match mk with
  | .otherErr e => ([Effect.mkdirOut], .err e)
  | _ =>
    if format == "original" || format == "" then
      match extracted with
      | .error e =>
        ([Effect.mkdirOut, Effect.extractCall],
          .err ("api.ExtractImagesFile: " ++ e))
      | .ok files =>
        let r := processExtractedFilesSequential files
        (Effect.mkdirOut :: Effect.extractCall :: r.effects,
          .seqDone r.outputs (if r.dupCount > 0 then [skipMsg r.dupCount] else []))
    else
      match GetEncoder format with
      | .error e => ([Effect.mkdirOut], .err e)
      | .ok encoder =>
        match extracted with
        | .error e =>
          ([Effect.mkdirOut, Effect.extractCall],
            .err ("api.ExtractImagesFile: " ++ e))
        | .ok files =>
          let li := loadImagesGo decode files
          match li.2 with
          | .error e => (Effect.mkdirOut :: Effect.extractCall :: li.1, .err e)
          | .ok loadedImages =>
            if loadedImages.isEmpty then
              (Effect.mkdirOut :: Effect.extractCall :: li.1, .emptyOk)
            else
              let d := dedupImages loadedImages []
              (Effect.mkdirOut :: Effect.extractCall :: li.1,
                .poolReady (if d.2 > 0 then [skipMsg d.2] else []) d.1 encoder)

/-- C10: an already-exists failure of the output-directory creation is
tolerated (the run is identical to the one where creation succeeded),
while any other creation failure aborts before any work, with only the
mkdir attempt in the trace. -/
theorem C10_mkdir_exists_tolerated :
    (∀ extracted decode format,
      ExtractImagesFromFile MkdirOutcome.alreadyExists extracted decode format =
        ExtractImagesFromFile MkdirOutcome.ok extracted decode format) ∧
    (∀ e extracted decode format,
      ExtractImagesFromFile (MkdirOutcome.otherErr e) extracted decode format =
        ([Effect.mkdirOut], .err e)) :=
  ⟨fun _ _ _ => rfl, fun _ _ _ _ => rfl⟩

/-- C5 (amended): for every requested output format other than the
"original"/unset sentinel whose lower-cased name is not registered in the
encoder registry (e.g. "gif"), the pipeline fails with the
unsupported-format error immediately after the directory-creation step:
the trace shows no extraction call, no file read, no decode, no hashing
and no write. -/
theorem C5_unsupported_format_fails_early (mk : MkdirOutcome)
    (extracted : Except String (List DirEntry))
    (decode : Bytes → Except String GoImage) (format : String)
    (hmk : mk = MkdirOutcome.ok ∨ mk = MkdirOutcome.alreadyExists)
    (hne1 : format ≠ "original") (hne2 : format ≠ "")
    (hreg : encoderRegistry.lookup (toLowerStr format) = none) :
    ExtractImagesFromFile mk extracted decode format =
      ([Effect.mkdirOut], .err ("unsupported format: " ++ toLowerStr format)) := by
  have hb1 : (format == "original") = false := by
    simpa using hne1
  have hb2 : (format == "") = false := by
    simpa using hne2
  have henc : GetEncoder format =
      .error ("unsupported format: " ++ toLowerStr format) := by
    simp [GetEncoder, hreg]
  rcases hmk with rfl | rfl <;>
    simp [ExtractImagesFromFile, hb1, hb2, henc]

/-- C5 witness: requesting the unregistered format "gif" fails with the
unsupported-format error and a trace holding only the mkdir attempt. -/
theorem C5_unsupported_format_fails_early_witness :
    ExtractImagesFromFile MkdirOutcome.ok
        (.ok [⟨"x.png", false, [1]⟩]) (fun b => .ok (.other b)) "gif" =
      ([Effect.mkdirOut], .err ("unsupported format: " ++ toLowerStr "gif")) :=
  C5_unsupported_format_fails_early MkdirOutcome.ok
    (.ok [⟨"x.png", false, [1]⟩]) (fun b => .ok (.other b)) "gif"
    (Or.inl rfl) (by decide) (by decide) (by decide)

/-- C5 counterexample: "original" is a format name that is not registered
in the encoder registry (its lookup fails, and GetEncoder rejects it),
yet the pipeline does not fail with an unsupported-format error for it —
it runs the sequential strategy and reads an input file. -/
theorem C5_counterexample_original_format :
    encoderRegistry.lookup (toLowerStr "original") = none ∧
    GetEncoder "original" = .error "unsupported format: original" ∧
    ExtractImagesFromFile MkdirOutcome.ok (.ok [⟨"x.png", false, [1]⟩])
        (fun b => .ok (.other b)) "original" =
      ([Effect.mkdirOut, Effect.extractCall, Effect.readFile "x.png",
        Effect.hashFile "x.png", Effect.writeFile (seqName "x.png" 0)],
        .seqDone [(seqName "x.png" 0, [1])] []) := by
  refine ⟨rfl, rfl, ?_⟩
  decide

/-- C7: a file is recognized exactly when its lower-cased extension is
one of the seven registered image extensions; unrecognized files are
skipped by both strategies without producing an error; and the concrete
scenario of a directory holding only "weird.xyz" with format "png" ends
in the early nil return with nothing written and no error. -/
theorem C7_extension_recognition (nm : String) :
    (isImageFile nm = true ↔ toLowerStr (fileExt nm) ∈ recognizedExts) ∧
    (∀ decode f fs, isImageFile f.name = false →
      loadImagesGo decode (f :: fs) = loadImagesGo decode fs) ∧
    (∀ f fs seen cnt, isImageFile f.name = false →
      processSeqGo (f :: fs) seen cnt = processSeqGo fs seen cnt) ∧
    ExtractImagesFromFile MkdirOutcome.ok (.ok [⟨"weird.xyz", false, [7]⟩])
        (fun b => .ok (.other b)) "png" =
      ([Effect.mkdirOut, Effect.extractCall], .emptyOk) := by
  refine ⟨?_, ?_, ?_, by decide⟩
  · simp only [isImageFile, recognizedExts, List.mem_cons, List.not_mem_nil,
      or_false, Bool.or_eq_true, beq_iff_eq]
    tauto
  · intro decode f fs h
    simp [loadImagesGo, h]
  · intro f fs seen cnt h
    have hskip : (f.isDir || !(isImageFile f.name)) = true := by
      simp [h]
    simp [processSeqGo, hskip]

/-- C7 witness: the recognition test and skip rule evaluated on a
concrete unrecognized file. -/
theorem C7_extension_recognition_witness :
    processSeqGo [⟨"weird.xyz", false, [7]⟩, ⟨"ok.png", false, [1]⟩] [] 0 =
      processSeqGo [⟨"ok.png", false, [1]⟩] [] 0 :=
  (C7_extension_recognition "weird.xyz").2.2.1 ⟨"weird.xyz", false, [7]⟩
    [⟨"ok.png", false, [1]⟩] [] 0 (by decide)

/-- C9: the two strategies use different index bases.  The sequential
strategy names its kth kept file with the 0-based counter (its first kept
file is image_0000 plus the preserved extension), while writeImageFile
names task index idx as image_%04d of idx+1 (its first unique image is
image_0001 plus the encoder extension) — so the same logical first image
gets different names under the two strategies. -/
theorem C9_index_bases :
    (∀ encoder idx,
      writeName encoder idx = "image_" ++ pad4 (idx + 1) ++ encoder.Extension) ∧
    (∀ f, eligible f = true →
      (processExtractedFilesSequential [f]).outputs =
        [(seqName f.name 0, f.data)]) ∧
    (∀ nm, seqName nm 0 = "image_0000" ++ seqExt nm) ∧
    (∀ encoder, writeName encoder 0 = "image_0001" ++ encoder.Extension) ∧
    seqName "x.png" 0 = "image_0000.png" ∧
    writeName ImageEncoder.PNGEncoder 0 = "image_0001.png" ∧
    seqName "x.png" 0 ≠ writeName ImageEncoder.PNGEncoder 0 := by
  refine ⟨fun _ _ => rfl, ?_, ?_, ?_, rfl, rfl, by decide⟩
  · intro f helig
    have hd : f.isDir = false ∧ isImageFile f.name = true := by
      revert helig
      simp only [eligible]
      cases f.isDir <;> cases isImageFile f.name <;> simp
    simp [processExtractedFilesSequential, processSeqGo, hd.1, hd.2]
  · intro nm
    show "image_" ++ pad4 0 ++ seqExt nm = "image_0000" ++ seqExt nm
    have h : "image_" ++ pad4 0 = "image_0000" := rfl
    rw [← h, String.append_assoc]
  · intro encoder
    show "image_" ++ pad4 1 ++ encoder.Extension = "image_0001" ++ encoder.Extension
    have h : "image_" ++ pad4 1 = "image_0001" := rfl
    rw [← h, String.append_assoc]

/-- C9 witness: the sequential first-file naming evaluated on a concrete
eligible file. -/
theorem C9_index_bases_witness :
    (processExtractedFilesSequential [⟨"x.png", false, [1]⟩]).outputs =
      [(seqName "x.png" 0, [1])] :=
  C9_index_bases.2.1 ⟨"x.png", false, [1]⟩ (by decide)

/-- WriteTask: a positional index (bound before dispatch, used for output
naming) paired with the image to encode. -/
structure WriteTask where
  Index : Nat
  Img : RGBA
deriving DecidableEq

/-- WriteTask creation in processImagesConcurrently: one task per unique
image, indexed by its position in the unique sequence. -/
def makeTasks (loadedImages : List LoadedImage) : List WriteTask :=
  loadedImages.enum.map (fun p => ⟨p.1, p.2.Img⟩)

/-- Status of one worker goroutine: in the receive loop, holding a task
just received from the channel (about to load the failure flag), running
encode-and-write on a task, or returned. -/
inductive WStatus where
  | idle
  | received (t : WriteTask)
  | working (t : WriteTask)
  | exited
deriving DecidableEq

/-- State of the worker pool of processImagesConcurrently: the number of
workers, the remaining buffered task channel (already fully enqueued and
closed), the workers, the shared atomic failure flag, the result channel
contents in arrival order, and the files written so far. -/
structure PoolState where
  numWorkers : Nat
  queue : List WriteTask
  workers : Nat → WStatus
  flag : Bool
  results : List (Option String)
  written : List (String × Bytes)

/-- Events of the worker pool, tagged with the acting worker. -/
inductive PoolLabel where
  | take (i : Nat) (t : WriteTask)
  | exitEmpty (i : Nat)
  | observeStop (i : Nat) (t : WriteTask)
  | start (i : Nat) (t : WriteTask)
  | finishOk (i : Nat) (t : WriteTask) (bs : Bytes)
  | finishErr (i : Nat) (t : WriteTask) (e : String)
deriving DecidableEq

/-- The worker performing a pool event. -/
def PoolLabel.actor : PoolLabel → Nat
  | .take i _ => i
  | .exitEmpty i => i
  | .observeStop i _ => i
  | .start i _ => i
  | .finishOk i _ _ => i
  | .finishErr i _ _ => i

/-- One interleaving step of the worker pool.  A worker receives the next
task from the FIFO channel, or exits when the closed channel is drained;
after receiving it loads the failure flag and either returns (without
processing the task or sending a result) or runs writeImageFile; the
combined encode-and-write outcome per task is the `outcome` parameter.
On success the deterministic file is written and nil is sent on the
result channel; on failure the flag is stored true and the error sent. -/
inductive PoolStep (encoder : ImageEncoder) (outcome : WriteTask → Except String Bytes) :
    PoolState → PoolLabel → PoolState → Prop where
  | take {s : PoolState} {i : Nat} {t : WriteTask} {rest : List WriteTask}
      (hi : i < s.numWorkers) (hw : s.workers i = .idle)
      (hq : s.queue = t :: rest) :
      PoolStep encoder outcome s (.take i t)
        { s with queue := rest,
                 workers := Function.update s.workers i (.received t) }
  | exitEmpty {s : PoolState} {i : Nat}
      (hi : i < s.numWorkers) (hw : s.workers i = .idle)
      (hq : s.queue = []) :
      PoolStep encoder outcome s (.exitEmpty i)
        { s with workers := Function.update s.workers i .exited }
  | observeStop {s : PoolState} {i : Nat} {t : WriteTask}
      (hi : i < s.numWorkers) (hw : s.workers i = .received t)
      (hf : s.flag = true) :
      PoolStep encoder outcome s (.observeStop i t)
        { s with workers := Function.update s.workers i .exited }
  | start {s : PoolState} {i : Nat} {t : WriteTask}
      (hi : i < s.numWorkers) (hw : s.workers i = .received t)
      (hf : s.flag = false) :
      PoolStep encoder outcome s (.start i t)
        { s with workers := Function.update s.workers i (.working t) }
  | finishOk {s : PoolState} {i : Nat} {t : WriteTask} {bs : Bytes}
      (hi : i < s.numWorkers) (hw : s.workers i = .working t)
      (ho : outcome t = .ok bs) :
      PoolStep encoder outcome s (.finishOk i t bs)
        { s with workers := Function.update s.workers i .idle,
                 results := s.results ++ [none],
                 written := s.written ++ [(writeName encoder t.Index, bs)] }
  | finishErr {s : PoolState} {i : Nat} {t : WriteTask} {e : String}
      (hi : i < s.numWorkers) (hw : s.workers i = .working t)
      (ho : outcome t = .error e) :
      PoolStep encoder outcome s (.finishErr i t e)
        { s with workers := Function.update s.workers i .idle,
                 flag := true,
                 results := s.results ++ [some e] }

/-- A finite execution of the pool: a labelled sequence of steps. -/
inductive PoolTrace (encoder : ImageEncoder) (outcome : WriteTask → Except String Bytes) :
    PoolState → List PoolLabel → PoolState → Prop where
  | nil {s : PoolState} : PoolTrace encoder outcome s [] s
  | cons {s : PoolState} {l : PoolLabel} {s₂ : PoolState} {ls : List PoolLabel}
      {s₃ : PoolState}
      (hstep : PoolStep encoder outcome s l s₂)
      (htr : PoolTrace encoder outcome s₂ ls s₃) :
      PoolTrace encoder outcome s (l :: ls) s₃

/-- The pool's initial state: all tasks enqueued into the buffered
channel before any is handed out, all workers started and idle, the
failure flag clear. -/
def initState (tasks : List WriteTask) (numWorkers : Nat) : PoolState :=
  ⟨numWorkers, tasks, fun _ => .idle, false, [], []⟩

/-- The pipeline completes once every worker has exited. -/
def allExited (s : PoolState) : Prop :=
  ∀ i < s.numWorkers, s.workers i = .exited

/-- The collector loop over the drained result channel: keeps the first
non-nil error, in arrival order. -/
def collectFirstErrorGo : List (Option String) → Option String → Option String
  | [], acc => acc
  | r :: rest, acc =>
    collectFirstErrorGo rest (if r.isSome && acc.isNone then r else acc)

/-- The batch's public result: the collector run over the results. -/
def processResult (s : PoolState) : Option String :=
  collectFirstErrorGo s.results none

/-- The collector never replaces an already-recorded first error. -/
theorem collectFirstErrorGo_some (rs : List (Option String)) (a : String) :
    collectFirstErrorGo rs (some a) = some a := by
  induction rs with
  | nil => rfl
  | cons r rest ih => simpa [collectFirstErrorGo] using ih

/-- The collector computes the head of the errors in arrival order. -/
theorem collectFirstErrorGo_eq_head (rs : List (Option String)) :
    collectFirstErrorGo rs none = (rs.filterMap id).head? := by
  induction rs with
  | nil => rfl
  | cons r rest ih =>
    cases r with
    | none => simpa [collectFirstErrorGo] using ih
    | some e => simp [collectFirstErrorGo, collectFirstErrorGo_some]

/-- Pool steps preserve the worker count. -/
theorem PoolStep.numWorkers_eq {encoder outcome s l s₂}
    (h : PoolStep encoder outcome s l s₂) : s₂.numWorkers = s.numWorkers := by
  cases h <;> rfl

/-- The acting worker of a step is within the pool. -/
theorem PoolStep.actor_lt {encoder outcome s l s₂}
    (h : PoolStep encoder outcome s l s₂) : l.actor < s.numWorkers := by
  cases h <;> simp_all [PoolLabel.actor]

/-- A worker that has exited performs no step. -/
theorem PoolStep.actor_not_exited {encoder outcome s l s₂}
    (h : PoolStep encoder outcome s l s₂) : s.workers l.actor ≠ .exited := by
  cases h <;> simp_all [PoolLabel.actor]

/-- A step leaves every other worker's status unchanged. -/
theorem PoolStep.workers_frame {encoder outcome s l s₂}
    (h : PoolStep encoder outcome s l s₂) (j : Nat) (hj : j ≠ l.actor) :
    s₂.workers j = s.workers j := by
  cases h <;>
    · simp only [PoolLabel.actor] at hj
      exact Function.update_noteq hj _ _

/-- An exited worker stays exited across one step. -/
theorem PoolStep.exited_persist {encoder outcome s l s₂} {i : Nat}
    (h : PoolStep encoder outcome s l s₂) (hex : s.workers i = .exited) :
    s₂.workers i = .exited := by
  by_cases hj : i = l.actor
  · subst hj
    exact absurd hex h.actor_not_exited
  · rw [h.workers_frame i hj]
    exact hex

/-- The failure flag is monotone: once stored true it stays true. -/
theorem PoolStep.flag_mono {encoder outcome s l s₂}
    (h : PoolStep encoder outcome s l s₂) (hf : s.flag = true) :
    s₂.flag = true := by
  cases h <;> simp_all

/-- Traces preserve the worker count. -/
theorem PoolTrace.numWorkers_stable {encoder outcome s ls s₂}
    (h : PoolTrace encoder outcome s ls s₂) : s₂.numWorkers = s.numWorkers := by
  induction h with
  | nil => rfl
  | cons hstep _ ih => rw [ih, hstep.numWorkers_eq]

/-- Once a worker has exited, it takes no further step in the rest of the
execution, and is still exited at its end. -/
theorem PoolTrace.exited_no_actor {encoder outcome s ls s₂} {i : Nat}
    (h : PoolTrace encoder outcome s ls s₂) (hex : s.workers i = .exited) :
    (∀ l ∈ ls, l.actor ≠ i) ∧ s₂.workers i = .exited := by
  induction h with
  | nil => exact ⟨by simp, hex⟩
  | cons hstep htr ih =>
    rename_i sa la sb lsb sc
    have hact : la.actor ≠ i := by
      intro heq
      apply hstep.actor_not_exited
      rw [heq]
      exact hex
    have hex₂ := hstep.exited_persist hex
    obtain ⟨hrest, hfin⟩ := ih hex₂
    refine ⟨?_, hfin⟩
    intro l hl
    rcases List.mem_cons.mp hl with rfl | hl'
    · exact hact
    · exact hrest l hl'

/-- A trace over concatenated labels splits at an intermediate state. -/
theorem PoolTrace.append_split {encoder outcome} {L₁ L₂ : List PoolLabel}
    {s s₂ : PoolState}
    (h : PoolTrace encoder outcome s (L₁ ++ L₂) s₂) :
    ∃ mid, PoolTrace encoder outcome s L₁ mid ∧
      PoolTrace encoder outcome mid L₂ s₂ := by
  induction L₁ generalizing s with
  | nil => exact ⟨s, PoolTrace.nil, h⟩
  | cons l L₁ ih =>
    cases h with
    | cons hstep htr =>
      obtain ⟨mid, h₁, h₂⟩ := ih htr
      exact ⟨mid, PoolTrace.cons hstep h₁, h₂⟩

/-- Inversion: an observeStop step leaves the acting worker exited. -/
theorem PoolStep.observeStop_exits {encoder outcome s s₂} {i : Nat} {t : WriteTask}
    (h : PoolStep encoder outcome s (.observeStop i t) s₂) :
    s₂.workers i = .exited := by
  cases h
  simp

/-- The task a worker currently holds (received or in flight), if any. -/
def taskOf : WStatus → Option WriteTask
  | .received t => some t
  | .working t => some t
  | _ => none

/-- All tasks currently held by workers. -/
def heldTasks (s : PoolState) : List WriteTask :=
  (List.range s.numWorkers).filterMap (fun j => taskOf (s.workers j))

/-- Splitting a range at an interior point. -/
theorem range_split (i k : Nat) :
    List.range (i + (k + 1)) =
      List.range i ++ i :: (List.range k).map (fun m => i + 1 + m) := by
  rw [List.range_add, List.range_succ_eq_map]
  simp only [List.map_cons, Nat.add_zero, List.map_map]
  have hcomp : ((fun x => i + x) ∘ Nat.succ) = (fun m => i + 1 + m) := by
    funext m
    show i + Nat.succ m = i + 1 + m
    omega
  rw [hcomp]

/-- Multiset effect of changing one point of a function under a
range-filterMap. -/
theorem filterMap_range_update (W i : Nat) (hi : i < W)
    (g : Nat → Option WriteTask) (v : Option WriteTask) :
    (((List.range W).filterMap (fun j => if j = i then v else g j) :
        Multiset WriteTask) + ((g i).toList : Multiset WriteTask)) =
      (((List.range W).filterMap g : Multiset WriteTask) +
        (v.toList : Multiset WriteTask)) := by
  obtain ⟨k, rfl⟩ : ∃ k, W = i + (k + 1) := ⟨W - i - 1, by omega⟩
  have hpre : (List.range i).filterMap (fun j => if j = i then v else g j) =
      (List.range i).filterMap g := by
    apply List.filterMap_congr
    intro j hj
    rw [if_neg (Nat.ne_of_lt (List.mem_range.mp hj))]
  have htail : ((List.range k).map (fun m => i + 1 + m)).filterMap
        (fun j => if j = i then v else g j) =
      ((List.range k).map (fun m => i + 1 + m)).filterMap g := by
    apply List.filterMap_congr
    intro j hj
    obtain ⟨m, _, rfl⟩ := List.mem_map.mp hj
    rw [if_neg (by omega)]
  rw [range_split i k]
  rw [List.filterMap_append, List.filterMap_append]
  rw [hpre]
  cases v with
  | none =>
    rw [@List.filterMap_cons_none Nat WriteTask
      (fun j => if j = i then none else g j) i
      ((List.range k).map (fun m => i + 1 + m)) (by simp), htail]
    cases hgi : g i with
    | none =>
      rw [@List.filterMap_cons_none Nat WriteTask g i
        ((List.range k).map (fun m => i + 1 + m)) hgi]
    | some b =>
      rw [@List.filterMap_cons_some Nat WriteTask g i
        ((List.range k).map (fun m => i + 1 + m)) b hgi]
      simp only [Option.toList]
      simp only [← Multiset.coe_add, ← Multiset.cons_coe, Multiset.coe_nil,
        ← Multiset.singleton_add]
      abel
  | some a =>
    rw [@List.filterMap_cons_some Nat WriteTask
      (fun j => if j = i then some a else g j) i
      ((List.range k).map (fun m => i + 1 + m)) a (by simp), htail]
    cases hgi : g i with
    | none =>
      rw [@List.filterMap_cons_none Nat WriteTask g i
        ((List.range k).map (fun m => i + 1 + m)) hgi]
      simp only [Option.toList]
      simp only [← Multiset.coe_add, ← Multiset.cons_coe, Multiset.coe_nil,
        ← Multiset.singleton_add]
      abel
    | some b =>
      rw [@List.filterMap_cons_some Nat WriteTask g i
        ((List.range k).map (fun m => i + 1 + m)) b hgi]
      simp only [Option.toList]
      simp only [← Multiset.coe_add, ← Multiset.cons_coe, Multiset.coe_nil,
        ← Multiset.singleton_add]
      abel

/-- heldTasks after one worker's status change, as a multiset identity. -/
theorem heldTasks_update (s : PoolState) (i : Nat) (hi : i < s.numWorkers)
    (v : WStatus) :
    ((heldTasks { s with workers := Function.update s.workers i v } :
        Multiset WriteTask) + ((taskOf (s.workers i)).toList : Multiset WriteTask)) =
      ((heldTasks s : Multiset WriteTask) +
        ((taskOf v).toList : Multiset WriteTask)) := by
  have hfun : (fun j => taskOf (Function.update s.workers i v j)) =
      (fun j => if j = i then taskOf v else taskOf (s.workers j)) := by
    funext j
    rw [Function.update_apply]
    by_cases hj : j = i <;> simp [hj]
  show (((List.range s.numWorkers).filterMap
      (fun j => taskOf (Function.update s.workers i v j)) : Multiset WriteTask) + _) = _
  rw [hfun]
  exact filterMap_range_update s.numWorkers i hi _ _

/-- A held task is in heldTasks. -/
theorem mem_heldTasks {s : PoolState} {i : Nat} {t : WriteTask}
    (hi : i < s.numWorkers) (ht : taskOf (s.workers i) = some t) :
    t ∈ heldTasks s :=
  List.mem_filterMap.mpr ⟨i, List.mem_range.mpr hi, ht⟩

/-- When every worker has exited, no task is held. -/
theorem heldTasks_eq_nil {s : PoolState} (hex : allExited s) :
    heldTasks s = [] := by
  apply List.filterMap_eq_nil_iff.mpr
  intro j hj
  rw [hex j (List.mem_range.mp hj)]
  rfl

/-- Conservation invariant of a failure-free pool run: the flag is clear,
a worker exits only once the channel is drained, and the tasks still
enqueued, held by workers, and already written partition the batch, with
every written file named and filled deterministically from its task. -/
def PoolInv (tasks : List WriteTask) (encoder : ImageEncoder)
    (bytesOf : WriteTask → Bytes) (s : PoolState) : Prop :=
  s.flag = false ∧
  (∀ i < s.numWorkers, s.workers i = WStatus.exited → s.queue = []) ∧
  ∃ done : List WriteTask,
    s.written = done.map (fun t => (writeName encoder t.Index, bytesOf t)) ∧
    ((s.queue : Multiset WriteTask) + (heldTasks s : Multiset WriteTask) +
        (done : Multiset WriteTask)) = (tasks : Multiset WriteTask)

/-- The initial pool state satisfies the conservation invariant. -/
theorem poolInv_init (tasks : List WriteTask) (W : Nat)
    (encoder : ImageEncoder) (bytesOf : WriteTask → Bytes) :
    PoolInv tasks encoder bytesOf (initState tasks W) := by
  refine ⟨rfl, ?_, [], rfl, ?_⟩
  · intro j _ hexj
    exact absurd hexj (by simp [initState])
  · have h0 : heldTasks (initState tasks W) = [] := by
      apply List.filterMap_eq_nil_iff.mpr
      intro j _
      rfl
    rw [h0]
    simp [initState]

/-- One pool step preserves the conservation invariant, provided every
task in the batch encodes and writes successfully. -/
theorem poolInv_step {encoder : ImageEncoder}
    {outcome : WriteTask → Except String Bytes} {tasks : List WriteTask}
    {bytesOf : WriteTask → Bytes} {s sNext : PoolState} {l : PoolLabel}
    (hok : ∀ t ∈ tasks, outcome t = .ok (bytesOf t))
    (hstep : PoolStep encoder outcome s l sNext)
    (hinv : PoolInv tasks encoder bytesOf s) :
    PoolInv tasks encoder bytesOf sNext := by
  obtain ⟨hflag, hexq, done, hwritten, hms⟩ := hinv
  cases hstep with
  | take hi hw hq =>
    rename_i i t rest
    refine ⟨hflag, ?_, done, hwritten, ?_⟩
    · intro j hj hexj
      by_cases hji : j = i
      · subst hji
        simp only [Function.update_same] at hexj
        exact absurd hexj (by simp)
      · simp only [Function.update_noteq hji] at hexj
        have := hexq j hj hexj
        rw [hq] at this
        exact absurd this (by simp)
    · have hupd := heldTasks_update s i hi (WStatus.received t)
      rw [hw] at hupd
      simp only [taskOf, Option.toList, Multiset.coe_nil, add_zero,
        Multiset.coe_singleton] at hupd
      have hupd2 :
          (heldTasks
            ({ s with queue := rest,
                      workers :=
                        Function.update s.workers i (WStatus.received t) }) :
            Multiset WriteTask) = ↑(heldTasks s) + {t} := hupd
      rw [hq] at hms
      simp only [← Multiset.cons_coe, ← Multiset.singleton_add] at hms
      rw [hupd2, ← hms]
      abel
  | exitEmpty hi hw hq =>
    rename_i i
    refine ⟨hflag, ?_, done, hwritten, ?_⟩
    · intro j _ _
      exact hq
    · have hupd := heldTasks_update s i hi WStatus.exited
      rw [hw] at hupd
      simp only [taskOf, Option.toList, Multiset.coe_nil, add_zero] at hupd
      have hupd2 :
          (heldTasks
            ({ s with workers :=
                        Function.update s.workers i WStatus.exited }) :
            Multiset WriteTask) = ↑(heldTasks s) := hupd
      rw [hupd2]
      exact hms
  | observeStop hi hw hf =>
    rw [hflag] at hf
    exact absurd hf (by simp)
  | start hi hw hf =>
    rename_i i t
    refine ⟨hflag, ?_, done, hwritten, ?_⟩
    · intro j hj hexj
      by_cases hji : j = i
      · subst hji
        simp only [Function.update_same] at hexj
        exact absurd hexj (by simp)
      · simp only [Function.update_noteq hji] at hexj
        exact hexq j hj hexj
    · have hupd := heldTasks_update s i hi (WStatus.working t)
      rw [hw] at hupd
      simp only [taskOf, Option.toList, Multiset.coe_singleton] at hupd
      have hupd2 :
          (heldTasks
            ({ s with workers :=
                        Function.update s.workers i (WStatus.working t) }) :
            Multiset WriteTask) = ↑(heldTasks s) := by
        have := hupd
        exact add_right_cancel this
      rw [hupd2]
      exact hms
  | finishOk hi hw ho =>
    rename_i i t bs
    have htmem : t ∈ tasks := by
      have h1 : t ∈ heldTasks s := mem_heldTasks hi (by rw [hw]; rfl)
      have h2 : t ∈ ((s.queue : Multiset WriteTask) + ↑(heldTasks s) + ↑done) := by
        rw [Multiset.mem_add, Multiset.mem_add]
        exact Or.inl (Or.inr (Multiset.mem_coe.mpr h1))
      rw [hms] at h2
      exact Multiset.mem_coe.mp h2
    have hbs : bs = bytesOf t := by
      have h3 := hok t htmem
      rw [ho] at h3
      exact Except.ok.inj h3
    subst hbs
    refine ⟨hflag, ?_, done ++ [t], ?_, ?_⟩
    · intro j hj hexj
      by_cases hji : j = i
      · subst hji
        simp only [Function.update_same] at hexj
        exact absurd hexj (by simp)
      · simp only [Function.update_noteq hji] at hexj
        exact hexq j hj hexj
    · rw [hwritten]
      simp
    · have hupd := heldTasks_update s i hi WStatus.idle
      rw [hw] at hupd
      simp only [taskOf, Option.toList, Multiset.coe_nil, add_zero,
        Multiset.coe_singleton] at hupd
      have hupd2 :
          (heldTasks
            ({ s with workers := Function.update s.workers i WStatus.idle,
                      results := s.results ++ [none],
                      written := s.written ++
                        [(writeName encoder t.Index, bytesOf t)] }) :
            Multiset WriteTask) + {t} = ↑(heldTasks s) := hupd
      rw [← hms, ← hupd2]
      simp only [← Multiset.coe_add, ← Multiset.cons_coe, Multiset.coe_nil,
        ← Multiset.singleton_add]
      abel
  | finishErr hi hw ho =>
    rename_i i t e
    have htmem : t ∈ tasks := by
      have h1 : t ∈ heldTasks s := mem_heldTasks hi (by rw [hw]; rfl)
      have h2 : t ∈ ((s.queue : Multiset WriteTask) + ↑(heldTasks s) + ↑done) := by
        rw [Multiset.mem_add, Multiset.mem_add]
        exact Or.inl (Or.inr (Multiset.mem_coe.mpr h1))
      rw [hms] at h2
      exact Multiset.mem_coe.mp h2
    have h3 := hok t htmem
    rw [ho] at h3
    exact absurd h3 (by simp)

/-- The conservation invariant transports along failure-free traces. -/
theorem poolInv_trace {encoder : ImageEncoder}
    {outcome : WriteTask → Except String Bytes} {tasks : List WriteTask}
    {bytesOf : WriteTask → Bytes} {s sEnd : PoolState} {ls : List PoolLabel}
    (hok : ∀ t ∈ tasks, outcome t = .ok (bytesOf t))
    (htr : PoolTrace encoder outcome s ls sEnd)
    (hinv : PoolInv tasks encoder bytesOf s) :
    PoolInv tasks encoder bytesOf sEnd := by
  induction htr with
  | nil => exact hinv
  | cons hstep _ ih => exact ih (poolInv_step hok hstep hinv)

/-- In a complete, failure-free pool run, the set of written files is
exactly one file per task, named by the task's index — independent of
the interleaving. -/
theorem pool_written_perm {encoder : ImageEncoder}
    {outcome : WriteTask → Except String Bytes} {bytesOf : WriteTask → Bytes}
    {tasks : List WriteTask} {W : Nat} {labels : List PoolLabel}
    {sEnd : PoolState}
    (hW : 0 < W)
    (htr : PoolTrace encoder outcome (initState tasks W) labels sEnd)
    (hex : allExited sEnd)
    (hok : ∀ t ∈ tasks, outcome t = .ok (bytesOf t)) :
    sEnd.written.Perm
      (tasks.map (fun t => (writeName encoder t.Index, bytesOf t))) := by
  have hinv := poolInv_trace hok htr (poolInv_init tasks W encoder bytesOf)
  obtain ⟨hflag, hexq, done, hwritten, hms⟩ := hinv
  have hnw : sEnd.numWorkers = W := htr.numWorkers_stable
  have hq : sEnd.queue = [] := hexq 0 (by omega) (hex 0 (by omega))
  have hheld : heldTasks sEnd = [] := heldTasks_eq_nil hex
  rw [hq, hheld] at hms
  simp only [Multiset.coe_nil, zero_add, add_zero] at hms
  have hperm : done.Perm tasks := Multiset.coe_eq_coe.mp hms
  rw [hwritten]
  exact hperm.map _

/-- The concrete C2 scenario's extracted directory: a.png and b.png are
byte-identical, c.jpg is distinct. -/
def scFiles : List DirEntry :=
  [⟨"a.png", false, [10]⟩, ⟨"b.png", false, [10]⟩, ⟨"c.jpg", false, [20]⟩]

/-- Decode model for the scenario: every file decodes to a non-RGBA
image carrying its bytes. -/
def scDecode : Bytes → Except String GoImage := fun b => .ok (.other b)

/-- The unique image set the scenario's dedup stage produces. -/
def scUnique : List LoadedImage := [⟨⟨[10]⟩, [10]⟩, ⟨⟨[20]⟩, [20]⟩]

/-- The scenario's effect trace up to the worker pool hand-off. -/
def scEffects : List Effect :=
  [.mkdirOut, .extractCall,
   .readFile "a.png", .decodeFile "a.png", .hashFile "a.png",
   .readFile "b.png", .decodeFile "b.png", .hashFile "b.png",
   .readFile "c.jpg", .decodeFile "c.jpg", .hashFile "c.jpg"]

/-- C2: output naming is the pure function image_%04d of the task's
1-based index, independent of worker interleaving: every complete
failure-free run writes exactly one file per unique image, named from
its index (first part).  Concretely, for a.png, b.png byte-identical to
a.png, and distinct c.jpg re-encoded to webp, the pipeline reports
"skipped 1 duplicate image(s)" and hands the pool exactly two tasks, so
every complete 2-worker run produces exactly the files image_0001.webp
and image_0002.webp (remaining parts). -/
theorem C2_pure_index_naming_and_scenario :
    (∀ (encoder : ImageEncoder) (outcome : WriteTask → Except String Bytes)
        (bytesOf : WriteTask → Bytes) (tasks : List WriteTask) (W : Nat)
        (labels : List PoolLabel) (sEnd : PoolState),
      0 < W →
      PoolTrace encoder outcome (initState tasks W) labels sEnd →
      allExited sEnd →
      (∀ t ∈ tasks, outcome t = .ok (bytesOf t)) →
      sEnd.written.Perm
        (tasks.map (fun t => (writeName encoder t.Index, bytesOf t)))) ∧
    (ExtractImagesFromFile MkdirOutcome.ok (.ok scFiles) scDecode "webp" =
      (scEffects,
        .poolReady ["skipped 1 duplicate image(s)"] scUnique
          ImageEncoder.WebPEncoder)) ∧
    makeTasks scUnique = [⟨0, ⟨[10]⟩⟩, ⟨1, ⟨[20]⟩⟩] ∧
    (∀ (encW : RGBA → Bytes) (labels : List PoolLabel) (sEnd : PoolState),
      PoolTrace ImageEncoder.WebPEncoder (fun t => .ok (encW t.Img))
        (initState (makeTasks scUnique) 2) labels sEnd →
      allExited sEnd →
      sEnd.written.Perm
        [("image_0001.webp", encW ⟨[10]⟩), ("image_0002.webp", encW ⟨[20]⟩)]) := by
  refine ⟨?_, by decide, by decide, ?_⟩
  · intro encoder outcome bytesOf tasks W labels sEnd hW htr hex hok
    exact pool_written_perm hW htr hex hok
  · intro encW labels sEnd htr hex
    have h := @pool_written_perm ImageEncoder.WebPEncoder
      (fun t => .ok (encW t.Img)) (fun t => encW t.Img) (makeTasks scUnique) 2
      labels sEnd (by omega) htr hex (fun t _ => rfl)
    have hmap : (makeTasks scUnique).map
        (fun t => (writeName ImageEncoder.WebPEncoder t.Index, encW t.Img)) =
        [("image_0001.webp", encW ⟨[10]⟩), ("image_0002.webp", encW ⟨[20]⟩)] := rfl
    rw [hmap] at h
    exact h

/-- A one-task batch for concrete pool executions. -/
def cwTask : WriteTask := ⟨0, ⟨[9]⟩⟩

/-- Outcome for the concrete run: the single task encodes to [5]. -/
def cwOutcome : WriteTask → Except String Bytes := fun _ => .ok [5]

/-- Labels of the concrete one-worker run. -/
def cwLabels : List PoolLabel :=
  [PoolLabel.take 0 cwTask, PoolLabel.start 0 cwTask,
   PoolLabel.finishOk 0 cwTask [5], PoolLabel.exitEmpty 0]

/-- Final state of the concrete one-worker run. -/
def cwFinal : PoolState :=
  { numWorkers := 1,
    queue := [],
    workers := Function.update (Function.update (Function.update (Function.update
      (fun _ => WStatus.idle) 0 (WStatus.received cwTask)) 0
      (WStatus.working cwTask)) 0 WStatus.idle) 0 WStatus.exited,
    flag := false,
    results := [none],
    written := [(writeName ImageEncoder.PNGEncoder 0, [5])] }

/-- A complete one-worker execution of the one-task batch. -/
theorem cwTrace : PoolTrace ImageEncoder.PNGEncoder cwOutcome
    (initState [cwTask] 1) cwLabels cwFinal := by
  refine PoolTrace.cons (PoolStep.take (by decide) rfl rfl) ?_
  refine PoolTrace.cons (PoolStep.start (by decide) rfl rfl) ?_
  refine PoolTrace.cons (PoolStep.finishOk (by decide) rfl rfl) ?_
  refine PoolTrace.cons (PoolStep.exitEmpty (by decide) rfl rfl) ?_
  exact PoolTrace.nil

/-- All workers of the concrete one-worker run have exited. -/
theorem cwFinal_allExited : allExited cwFinal := by
  intro i hi
  have h1 : cwFinal.numWorkers = 1 := rfl
  have h0 : i = 0 := by omega
  subst h0
  rfl

/-- C2 witness: the schedule-independent naming theorem evaluated on a
complete concrete run. -/
theorem C2_pure_index_naming_and_scenario_witness :
    cwFinal.written.Perm
      ([cwTask].map (fun t => (writeName ImageEncoder.PNGEncoder t.Index, [5]))) :=
  C2_pure_index_naming_and_scenario.1 ImageEncoder.PNGEncoder cwOutcome
    (fun _ => [5]) [cwTask] 1 cwLabels cwFinal (by decide) cwTrace
    cwFinal_allExited (fun t _ => rfl)

/-- Two tasks whose encodes both fail, for the arrival-order run. -/
def e2t0 : WriteTask := ⟨0, ⟨[1]⟩⟩

/-- Second failing task. -/
def e2t1 : WriteTask := ⟨1, ⟨[2]⟩⟩

/-- Outcome: task 0 fails with "e0", task 1 fails with "e1". -/
def e2Outcome : WriteTask → Except String Bytes :=
  fun t => if t.Index = 0 then .error "e0" else .error "e1"

/-- Labels of a two-worker run where task 1's error arrives first. -/
def e2Labels : List PoolLabel :=
  [PoolLabel.take 0 e2t0, PoolLabel.take 1 e2t1,
   PoolLabel.start 0 e2t0, PoolLabel.start 1 e2t1,
   PoolLabel.finishErr 1 e2t1 "e1", PoolLabel.finishErr 0 e2t0 "e0",
   PoolLabel.exitEmpty 0, PoolLabel.exitEmpty 1]

/-- Final state of that run: both errors on the channel, task 1's first. -/
def e2Final : PoolState :=
  { numWorkers := 2,
    queue := [],
    workers := Function.update (Function.update (Function.update
      (Function.update (Function.update (Function.update (Function.update
      (Function.update (fun _ => WStatus.idle)
        0 (WStatus.received e2t0)) 1 (WStatus.received e2t1))
        0 (WStatus.working e2t0)) 1 (WStatus.working e2t1))
        1 WStatus.idle) 0 WStatus.idle) 0 WStatus.exited) 1 WStatus.exited,
    flag := true,
    results := [some "e1", some "e0"],
    written := [] }

/-- The complete two-worker execution where task 1's error arrives
before task 0's. -/
theorem e2Trace : PoolTrace ImageEncoder.PNGEncoder e2Outcome
    (initState [e2t0, e2t1] 2) e2Labels e2Final := by
  refine PoolTrace.cons (PoolStep.take (by decide) rfl rfl) ?_
  refine PoolTrace.cons (PoolStep.take (by decide) rfl rfl) ?_
  refine PoolTrace.cons (PoolStep.start (by decide) rfl rfl) ?_
  refine PoolTrace.cons (PoolStep.start (by decide) rfl rfl) ?_
  refine PoolTrace.cons (PoolStep.finishErr (by decide) rfl rfl) ?_
  refine PoolTrace.cons (PoolStep.finishErr (by decide) rfl rfl) ?_
  refine PoolTrace.cons (PoolStep.exitEmpty (by decide) rfl rfl) ?_
  refine PoolTrace.cons (PoolStep.exitEmpty (by decide) rfl rfl) ?_
  exact PoolTrace.nil

/-- All workers of the double-error run have exited. -/
theorem e2Final_allExited : allExited e2Final := by
  intro i hi
  have h2 : e2Final.numWorkers = 2 := rfl
  have h01 : i = 0 ∨ i = 1 := by omega
  rcases h01 with rfl | rfl <;> rfl

/-- Along a trace with no failure event, every result is nil. -/
theorem no_failure_results_none {encoder : ImageEncoder}
    {outcome : WriteTask → Except String Bytes} {s sEnd : PoolState}
    {ls : List PoolLabel}
    (htr : PoolTrace encoder outcome s ls sEnd)
    (hnf : ∀ i t e, PoolLabel.finishErr i t e ∉ ls)
    (hres : ∀ r ∈ s.results, r = none) :
    ∀ r ∈ sEnd.results, r = none := by
  induction htr with
  | nil => exact hres
  | cons hstep htrtl ih =>
    rename_i sa la sb lsb sc
    have hnf2 : ∀ i t e, PoolLabel.finishErr i t e ∉ lsb :=
      fun i t e h => hnf i t e (List.mem_cons_of_mem _ h)
    apply ih hnf2
    cases hstep with
    | take hi hw hq => exact hres
    | exitEmpty hi hw hq => exact hres
    | observeStop hi hw hf => exact hres
    | start hi hw hf => exact hres
    | finishOk hi hw ho =>
      intro r hr
      rcases List.mem_append.mp hr with h | h
      · exact hres r h
      · simpa using h
    | finishErr hi hw ho =>
      rename_i i t e
      exact absurd (List.mem_cons_self _ _) (hnf i t e)

/-- An all-nil result list collects to nil. -/
theorem collectFirstErrorGo_none_of_all_none (rs : List (Option String))
    (hall : ∀ r ∈ rs, r = none) : collectFirstErrorGo rs none = none := by
  rw [collectFirstErrorGo_eq_head]
  have h0 : rs.filterMap id = [] :=
    List.filterMap_eq_nil_iff.mpr (fun a ha => hall a ha)
  rw [h0]
  rfl

/-- C3: the batch's public result is the first error in result-channel
arrival order (the head of the errors as they arrived); if no worker
ever failed, the batch result is nil — in particular for the task batch
produced by the dedup scenario that discarded a duplicate; and a
concrete complete run shows the arrival order, not the task index,
decides the reported error: both tasks fail, task 1's error "e1"
arrives first, and the batch returns "e1" even though task 0's error
was "e0". -/
theorem C3_first_error_result :
    (∀ rs : List (Option String),
      collectFirstErrorGo rs none = (rs.filterMap id).head?) ∧
    (∀ (encoder : ImageEncoder) (outcome : WriteTask → Except String Bytes)
        (tasks : List WriteTask) (W : Nat) (labels : List PoolLabel)
        (sEnd : PoolState),
      PoolTrace encoder outcome (initState tasks W) labels sEnd →
      (∀ i t e, PoolLabel.finishErr i t e ∉ labels) →
      processResult sEnd = none) ∧
    (∀ (labels : List PoolLabel) (sEnd : PoolState),
      PoolTrace ImageEncoder.WebPEncoder (fun t => .ok t.Img.pix)
        (initState (makeTasks scUnique) 2) labels sEnd →
      (∀ i t e, PoolLabel.finishErr i t e ∉ labels) →
      processResult sEnd = none) ∧
    (PoolTrace ImageEncoder.PNGEncoder e2Outcome (initState [e2t0, e2t1] 2)
        e2Labels e2Final ∧
      allExited e2Final ∧
      e2Final.results = [some "e1", some "e0"] ∧
      e2Outcome e2t0 = .error "e0" ∧
      processResult e2Final = some "e1") := by
  have hnofail : ∀ (encoder : ImageEncoder)
      (outcome : WriteTask → Except String Bytes)
      (tasks : List WriteTask) (W : Nat) (labels : List PoolLabel)
      (sEnd : PoolState),
      PoolTrace encoder outcome (initState tasks W) labels sEnd →
      (∀ i t e, PoolLabel.finishErr i t e ∉ labels) →
      processResult sEnd = none := by
    intro encoder outcome tasks W labels sEnd htr hnf
    have hall := no_failure_results_none htr hnf (by simp [initState])
    exact collectFirstErrorGo_none_of_all_none sEnd.results hall
  refine ⟨collectFirstErrorGo_eq_head, hnofail, ?_,
    e2Trace, e2Final_allExited, rfl, rfl, rfl⟩
  intro labels sEnd htr hnf
  exact hnofail ImageEncoder.WebPEncoder (fun t => .ok t.Img.pix)
    (makeTasks scUnique) 2 labels sEnd htr hnf

/-- C3 witness: the no-failure conjunct evaluated on the complete
concrete failure-free run. -/
theorem C3_first_error_result_witness : processResult cwFinal = none :=
  C3_first_error_result.2.1 ImageEncoder.PNGEncoder cwOutcome [cwTask] 1
    cwLabels cwFinal cwTrace
    (by
      intro i t e h
      simp [cwLabels] at h)

/-- Any error on the result channel implies the failure flag is set. -/
theorem error_sets_flag {encoder : ImageEncoder}
    {outcome : WriteTask → Except String Bytes} {s sEnd : PoolState}
    {ls : List PoolLabel}
    (htr : PoolTrace encoder outcome s ls sEnd)
    (hinv : ∀ e, some e ∈ s.results → s.flag = true) :
    ∀ e, some e ∈ sEnd.results → sEnd.flag = true := by
  induction htr with
  | nil => exact hinv
  | cons hstep htrtl ih =>
    apply ih
    intro e hmem
    cases hstep with
    | take hi hw hq => exact hinv e hmem
    | exitEmpty hi hw hq => exact hinv e hmem
    | observeStop hi hw hf => exact hf
    | start hi hw hf => exact hinv e hmem
    | finishOk hi hw ho =>
      rcases List.mem_append.mp hmem with h | h
      · exact hinv e h
      · simp at h
    | finishErr hi hw ho => rfl

/-- A worker whose task is in flight finishes it: its only next steps
are completing the write or reporting the error. -/
theorem working_steps_finish {encoder : ImageEncoder}
    {outcome : WriteTask → Except String Bytes} {s sNext : PoolState}
    {l : PoolLabel} {i : Nat} {t : WriteTask}
    (hstep : PoolStep encoder outcome s l sNext)
    (hact : l.actor = i) (hw : s.workers i = WStatus.working t) :
    (∃ bs, l = PoolLabel.finishOk i t bs) ∨
      (∃ e, l = PoolLabel.finishErr i t e) := by
  cases hstep with
  | take hi hw2 hq =>
    rename_i j u rest
    simp only [PoolLabel.actor] at hact
    subst hact
    rw [hw] at hw2
    exact absurd hw2 (by simp)
  | exitEmpty hi hw2 hq =>
    rename_i j
    simp only [PoolLabel.actor] at hact
    subst hact
    rw [hw] at hw2
    exact absurd hw2 (by simp)
  | observeStop hi hw2 hf =>
    rename_i j u
    simp only [PoolLabel.actor] at hact
    subst hact
    rw [hw] at hw2
    exact absurd hw2 (by simp)
  | start hi hw2 hf =>
    rename_i j u
    simp only [PoolLabel.actor] at hact
    subst hact
    rw [hw] at hw2
    exact absurd hw2 (by simp)
  | finishOk hi hw2 ho =>
    rename_i j u bs
    simp only [PoolLabel.actor] at hact
    subst hact
    rw [hw] at hw2
    have hu := WStatus.working.inj hw2
    subst hu
    exact Or.inl ⟨bs, rfl⟩
  | finishErr hi hw2 ho =>
    rename_i j u e
    simp only [PoolLabel.actor] at hact
    subst hact
    rw [hw] at hw2
    have hu := WStatus.working.inj hw2
    subst hu
    exact Or.inr ⟨e, rfl⟩

/-- A task in flight when the run completes was finished by its worker:
some later event writes it or reports its error — it is never silently
aborted. -/
theorem working_completes {encoder : ImageEncoder}
    {outcome : WriteTask → Except String Bytes} {s sEnd : PoolState}
    {ls : List PoolLabel}
    (htr : PoolTrace encoder outcome s ls sEnd) :
    ∀ i t, i < s.numWorkers → s.workers i = WStatus.working t →
      allExited sEnd →
      (∃ bs, PoolLabel.finishOk i t bs ∈ ls) ∨
        (∃ e, PoolLabel.finishErr i t e ∈ ls) := by
  induction htr with
  | nil =>
    intro i t hi hw hex
    have h := hex i hi
    rw [hw] at h
    exact absurd h (by simp)
  | cons hstep htrtl ih =>
    rename_i sa la sb lsb sc
    intro i t hi hw hex
    by_cases hact : la.actor = i
    · rcases working_steps_finish hstep hact hw with ⟨bs, rfl⟩ | ⟨e, rfl⟩
      · exact Or.inl ⟨bs, List.mem_cons_self _ _⟩
      · exact Or.inr ⟨e, List.mem_cons_self _ _⟩
    · have hw2 : sb.workers i = WStatus.working t := by
        rw [hstep.workers_frame i (fun h => hact h.symm)]
        exact hw
      have hi2 : i < sb.numWorkers := by
        rw [hstep.numWorkers_eq]
        exact hi
      rcases ih i t hi2 hw2 hex with ⟨bs, hm⟩ | ⟨e, hm⟩
      · exact Or.inl ⟨bs, List.mem_cons_of_mem _ hm⟩
      · exact Or.inr ⟨e, List.mem_cons_of_mem _ hm⟩

/-- First mixed-outcome task: its encode fails. -/
def mxt0 : WriteTask := ⟨0, ⟨[1]⟩⟩

/-- Second mixed-outcome task: its encode succeeds. -/
def mxt1 : WriteTask := ⟨1, ⟨[2]⟩⟩

/-- Outcome: task 0 fails with "boom", task 1 encodes to [7]. -/
def mxOutcome : WriteTask → Except String Bytes :=
  fun t => if t.Index = 0 then .error "boom" else .ok [7]

/-- Labels of a run where worker 1's task is in flight when worker 0
fails; the write still completes after the failure. -/
def mxLabels : List PoolLabel :=
  [PoolLabel.take 0 mxt0, PoolLabel.take 1 mxt1,
   PoolLabel.start 0 mxt0, PoolLabel.start 1 mxt1,
   PoolLabel.finishErr 0 mxt0 "boom", PoolLabel.finishOk 1 mxt1 [7],
   PoolLabel.exitEmpty 0, PoolLabel.exitEmpty 1]

/-- Final state of the mixed run: the failure is on the channel first,
and the in-flight task's file was still written afterwards. -/
def mxFinal : PoolState :=
  { numWorkers := 2,
    queue := [],
    workers := Function.update (Function.update (Function.update
      (Function.update (Function.update (Function.update (Function.update
      (Function.update (fun _ => WStatus.idle)
        0 (WStatus.received mxt0)) 1 (WStatus.received mxt1))
        0 (WStatus.working mxt0)) 1 (WStatus.working mxt1))
        0 WStatus.idle) 1 WStatus.idle) 0 WStatus.exited) 1 WStatus.exited,
    flag := true,
    results := [some "boom", none],
    written := [(writeName ImageEncoder.PNGEncoder 1, [7])] }

/-- The complete mixed-outcome execution. -/
theorem mxTrace : PoolTrace ImageEncoder.PNGEncoder mxOutcome
    (initState [mxt0, mxt1] 2) mxLabels mxFinal := by
  refine PoolTrace.cons (PoolStep.take (by decide) rfl rfl) ?_
  refine PoolTrace.cons (PoolStep.take (by decide) rfl rfl) ?_
  refine PoolTrace.cons (PoolStep.start (by decide) rfl rfl) ?_
  refine PoolTrace.cons (PoolStep.start (by decide) rfl rfl) ?_
  refine PoolTrace.cons (PoolStep.finishErr (by decide) rfl rfl) ?_
  refine PoolTrace.cons (PoolStep.finishOk (by decide) rfl rfl) ?_
  refine PoolTrace.cons (PoolStep.exitEmpty (by decide) rfl rfl) ?_
  refine PoolTrace.cons (PoolStep.exitEmpty (by decide) rfl rfl) ?_
  exact PoolTrace.nil

/-- All workers of the mixed run have exited. -/
theorem mxFinal_allExited : allExited mxFinal := by
  intro i hi
  have h2 : mxFinal.numWorkers = 2 := rfl
  have h01 : i = 0 ∨ i = 1 := by omega
  rcases h01 with rfl | rfl <;> rfl

/-- C4: any worker failure sets the shared flag (every error on the
channel implies the flag); a worker that observes the flag set exits and
never acts again — in particular it starts no new task; a worker whose
task is in flight is not aborted: its only next steps complete the write
or report the error, and in every completed run an in-flight task was
finished; and a concrete run shows that after the first failure a
further result may still arrive and a further file still be written. -/
theorem C4_eventual_stop_policy :
    (∀ (encoder : ImageEncoder) (outcome : WriteTask → Except String Bytes)
        (tasks : List WriteTask) (W : Nat) (labels : List PoolLabel)
        (sEnd : PoolState),
      PoolTrace encoder outcome (initState tasks W) labels sEnd →
      ∀ e, some e ∈ sEnd.results → sEnd.flag = true) ∧
    (∀ (encoder : ImageEncoder) (outcome : WriteTask → Except String Bytes)
        (s sEnd : PoolState) (L₁ L₂ : List PoolLabel) (i : Nat) (t : WriteTask),
      PoolTrace encoder outcome s (L₁ ++ PoolLabel.observeStop i t :: L₂) sEnd →
      ∀ l ∈ L₂, PoolLabel.actor l ≠ i) ∧
    (∀ (encoder : ImageEncoder) (outcome : WriteTask → Except String Bytes)
        (s sNext : PoolState) (l : PoolLabel) (i : Nat) (t : WriteTask),
      PoolStep encoder outcome s l sNext → l.actor = i →
      s.workers i = WStatus.working t →
      (∃ bs, l = PoolLabel.finishOk i t bs) ∨
        (∃ e, l = PoolLabel.finishErr i t e)) ∧
    (∀ (encoder : ImageEncoder) (outcome : WriteTask → Except String Bytes)
        (s sEnd : PoolState) (labels : List PoolLabel) (i : Nat) (t : WriteTask),
      PoolTrace encoder outcome s labels sEnd → i < s.numWorkers →
      s.workers i = WStatus.working t → allExited sEnd →
      (∃ bs, PoolLabel.finishOk i t bs ∈ labels) ∨
        (∃ e, PoolLabel.finishErr i t e ∈ labels)) ∧
    (PoolTrace ImageEncoder.PNGEncoder mxOutcome (initState [mxt0, mxt1] 2)
        mxLabels mxFinal ∧
      allExited mxFinal ∧
      mxLabels = mxLabels.take 4 ++ PoolLabel.finishErr 0 mxt0 "boom" ::
        (PoolLabel.finishOk 1 mxt1 [7] ::
          [PoolLabel.exitEmpty 0, PoolLabel.exitEmpty 1]) ∧
      mxFinal.written = [(writeName ImageEncoder.PNGEncoder 1, [7])] ∧
      mxFinal.results = [some "boom", none]) := by
  refine ⟨?_, ?_, ?_, ?_, mxTrace, mxFinal_allExited, by decide, rfl, rfl⟩
  · intro encoder outcome tasks W labels sEnd htr e hmem
    exact error_sets_flag htr (by simp [initState]) e hmem
  · intro encoder outcome s sEnd L₁ L₂ i t htr l hl
    obtain ⟨mid, htr₁, htr₂⟩ := htr.append_split
    cases htr₂ with
    | cons hstep htrtl =>
      exact (htrtl.exited_no_actor hstep.observeStop_exits).1 l hl
  · intro encoder outcome s sNext l i t hstep hact hw
    exact working_steps_finish hstep hact hw
  · intro encoder outcome s sEnd labels i t htr hi hw hex
    exact working_completes htr i t hi hw hex

/-- C4 witness: the failure-sets-flag conjunct evaluated on the mixed
concrete run, where a file is still written after the failure. -/
theorem C4_eventual_stop_policy_witness : mxFinal.flag = true :=
  C4_eventual_stop_policy.1 ImageEncoder.PNGEncoder mxOutcome [mxt0, mxt1] 2
    mxLabels mxFinal mxTrace "boom" (by decide)
